import Mathlib

set_option autoImplicit false

namespace MMCScrape

/-! ## Python string primitives

Python `str` values are modelled as `List Char`; bytes objects as `List Nat`.
`pyStrip` models `str.strip()` (whitespace removal at both ends), `isPySpace`
the ASCII whitespace class used by `strip` and the regex class `\s`, and
`isPyDigit` the regex class `\d` on ASCII input. -/

def isPySpace (c : Char) : Bool :=
  c == ' ' || c == '\t' || c == '\n' || c == '\r' || c == '\x0b' || c == '\x0c'

def isPyDigit (c : Char) : Bool :=
  decide ('0' ≤ c) && decide (c ≤ '9')

def pyStrip (l : List Char) : List Char :=
  ((l.dropWhile isPySpace).reverse.dropWhile isPySpace).reverse

/-! ## Image extraction (`scripts/extract_images_now.py`)

`extract_images_from_json` reads the file text, finds the first substring
matching the regex `cp\.imagesJSONCache\d+\s*=\s*(\{.*?\});` (DOTALL, the
brace group minimal), parses the captured group as a JSON object mapping
filename to base64 text, and writes each decoded image that passes the
filters.  The two external library calls are parameters of the embedding:
`jsonLoads` for `json.loads` (`none` = `JSONDecodeError`) and `b64decode`
for `base64.b64decode` (`none` = any exception during entry processing). -/

def sentinel : List Char := ['_', '_', '_']

def pngSuffix : List Char := ['.', 'p', 'n', 'g']

def clean_filename (filename : List Char) : List Char :=
  let replaced := filename.map (fun c => if c = '/' then '_' else c)
  if pngSuffix.isSuffixOf replaced then replaced else replaced ++ pngSuffix

structure ExtractResult where
  writes : List (List Char × List Nat)
  count : Nat
  deriving DecidableEq

def processEntry (b64decode : List Char → Option (List Nat))
    (e : List Char × List Char) : ExtractResult :=
  if pyStrip e.1 = [] ∨ e.1 = sentinel then ⟨[], 0⟩
  else if pyStrip e.2 = [] then ⟨[], 0⟩
  else
    match b64decode e.2 with
    | none => ⟨[], 0⟩
    | some image_data =>
      if 100 < image_data.length then ⟨[(clean_filename e.1, image_data)], 1⟩
      else ⟨[], 0⟩

def processEntries (b64decode : List Char → Option (List Nat)) :
    List (List Char × List Char) → ExtractResult
  | [] => ⟨[], 0⟩
  | e :: rest =>
    let r := processEntry b64decode e
    let rs := processEntries b64decode rest
    ⟨r.writes ++ rs.writes, r.count + rs.count⟩

/-- The literal `cp.imagesJSONCache` that opens the regex. -/
def cacheLit : List Char :=
  ['c', 'p', '.', 'i', 'm', 'a', 'g', 'e', 's', 'J', 'S', 'O', 'N',
   'C', 'a', 'c', 'h', 'e']

def stripLit : List Char → List Char → Option (List Char)
  | [], l => some l
  | _ :: _, [] => none
  | p :: ps, c :: cs => if c = p then stripLit ps cs else none

/-- Minimal match for `.*?\});`: scan for the first `};`, returning the
consumed characters ending in the `}`. -/
def braceBody : List Char → Option (List Char)
  | [] => none
  | [_] => none
  | c :: d :: rest =>
    if c = '}' ∧ d = ';' then some ['}']
    else (braceBody (d :: rest)).map (fun b => c :: b)

/-- Try to match the whole regex starting exactly at the head of `l`,
returning the captured group `\{.*?\}`. -/
def matchAt (l : List Char) : Option (List Char) :=
  match stripLit cacheLit l with
  | none => none
  | some r =>
    if r.takeWhile isPyDigit = [] then none
    else
      match (r.dropWhile isPyDigit).dropWhile isPySpace with
      | '=' :: r3 =>
        match r3.dropWhile isPySpace with
        | '{' :: rest => (braceBody rest).map (fun b => '{' :: b)
        | _ => none
      | _ => none

/-- `re.search`: leftmost position at which the pattern matches. -/
def findCacheMatch : List Char → Option (List Char)
  | [] => none
  | c :: rest =>
    match matchAt (c :: rest) with
    | some s => some s
    | none => findCacheMatch rest

def extract_images_from_json
    (jsonLoads : List Char → Option (List (List Char × List Char)))
    (b64decode : List Char → Option (List Nat))
    (content : List Char) : ExtractResult :=
  match findCacheMatch content with
  | none => ⟨[], 0⟩
  | some json_str =>
    match jsonLoads json_str with
    | none => ⟨[], 0⟩
    | some images_data => processEntries b64decode images_data

/-! ## A file-system model for idempotence (C7) -/

def FileSys : Type := List Char → Option (List Nat)

def writeFile (fs : FileSys) (name : List Char) (data : List Nat) : FileSys :=
  fun n => if n = name then some data else fs n

def applyWrites (fs : FileSys) : List (List Char × List Nat) → FileSys
  | [] => fs
  | w :: rest => applyWrites (writeFile fs w.1 w.2) rest

/-- The last value written to `n` by the write list, if any. -/
def lastWrite : List (List Char × List Nat) → List Char → Option (List Nat)
  | [], _ => none
  | w :: rest, n =>
    match lastWrite rest n with
    | some d => some d
    | none => if n = w.1 then some w.2 else none

/-! ## CSV filtering (`scripts/extract_bad_modules_csv.py`)

A CSV row as produced by `csv.DictReader` is an association list from field
name to field text; `rowGet` is `row.get(key, default)`. -/

abbrev Row : Type := List (List Char × List Char)

def rowGet (row : Row) (key dflt : List Char) : List Char :=
  match row.find? (fun p => p.1 == key) with
  | some p => p.2
  | none => dflt

def lessonIDKey : List Char := ['l', 'e', 's', 's', 'o', 'n', 'I', 'D']

def rowLessonId (row : Row) : List Char := pyStrip (rowGet row lessonIDKey [])

/-- The `matching_rows` accumulation of `extract_bad_modules_csv`: keep, in
order, the rows whose stripped `lessonID` is in the bad-modules set. -/
def matching_rows (bad : List (List Char)) (rows : List Row) : List Row :=
  rows.filter (fun r => decide (rowLessonId r ∈ bad))

/-! ## Bad-modules list loading

`scripts/scrape_bad_modules.py` accumulates a Python list,
`scripts/extract_bad_modules_csv.py` a Python set.  The file is modelled as
`Option (List (List Char))`: `none` when `bad_modules.txt` does not exist,
otherwise the list of its lines.  The set is modelled as an
insertion-ordered duplicate-free list (`addSet` is `set.add`). -/

def collectIds : List (List Char) → List (List Char)
  | [] => []
  | l :: rest =>
    let s := pyStrip l
    if s ≠ [] ∧ s.head? ≠ some '#' then s :: collectIds rest
    else collectIds rest

def addSet (s : List (List Char)) (x : List Char) : List (List Char) :=
  if x ∈ s then s else s ++ [x]

def collectIdsSet : List (List Char) → List (List Char) → List (List Char)
  | acc, [] => acc
  | acc, l :: rest =>
    let s := pyStrip l
    if s ≠ [] ∧ s.head? ≠ some '#' then collectIdsSet (addSet acc s) rest
    else collectIdsSet acc rest

def load_bad_modules_as_list : Option (List (List Char)) → List (List Char)
  | none => []
  | some lines => collectIds lines

def load_bad_modules_as_set : Option (List (List Char)) → List (List Char)
  | none => []
  | some lines => collectIdsSet [] lines

/-! ## Parallel scraper (`scripts/parallel_scraper_full.py`)

A batch task is `(url_data, api_key, worker_id, batch_num)`; `url_data` is
reduced to the lesson id / url string it carries.  `scrape_single_course`
is parametrised by the outcome of `scraper.process_course_url` — `.ok` when
it returns, `.error msg` when it raises an exception with message `msg`. -/

structure Task where
  url : List Char
  api_key : List Char
  worker_id : Nat
  batch_num : Nat
  deriving DecidableEq

/-- `api_keys[i % len(api_keys)]`, the in-batch round-robin rule. -/
def batchKey (keys : List (List Char)) (i : Nat) : List Char :=
  keys.getD (i % keys.length) []

def batchTasksFrom (keys : List (List Char)) (bnum : Nat) :
    List (List Char) → Nat → List Task
  | [], _ => []
  | u :: rest, i =>
    ⟨u, batchKey keys i, i + 1, bnum⟩ :: batchTasksFrom keys bnum rest (i + 1)

/-- The task list built by `process_batch` for one batch. -/
def process_batch_tasks (batch_urls keys : List (List Char)) (bnum : Nat) :
    List Task :=
  batchTasksFrom keys bnum batch_urls 0

/-- The batch loop of `main`: slices of size `kp + 1` (`kp + 1` is the key
count, kept positive to mirror `batch_size = len(api_keys)` with a nonempty
key file), batch numbers starting at 1. -/
def allTasksAux (kp : Nat) (keys : List (List Char)) :
    List (List Char) → Nat → List Task
  | [], _ => []
  | u :: rest, bnum =>
    process_batch_tasks ((u :: rest).take (kp + 1)) keys bnum ++
      allTasksAux kp keys (rest.drop kp) (bnum + 1)
termination_by l _ => l.length
decreasing_by
  simp only [List.length_drop, List.length_cons]
  omega

def main_all_tasks (urls keys : List (List Char)) : List Task :=
  if keys.length = 0 then [] else allTasksAux (keys.length - 1) keys urls 1

/-- `max_workers = min(len(batch_urls), len(api_keys))` in `process_batch`. -/
def process_batch_max_workers (batch_urls keys : List (List Char)) : Nat :=
  min batch_urls.length keys.length

/-- `max_workers = min(10, len(api_keys))` in `parallel_scraper_demo.main`. -/
def demo_max_workers (keys : List (List Char)) : Nat :=
  min 10 keys.length

structure ScrapeResult where
  batch_num : Nat
  worker_id : Nat
  lesson_id : List Char
  status : List Char
  error : Option (List Char)
  deriving DecidableEq

def statusSuccess : List Char := ['s', 'u', 'c', 'c', 'e', 's', 's']

def statusFailed : List Char := ['f', 'a', 'i', 'l', 'e', 'd']

def scrape_single_course (outcome : Except (List Char) Unit)
    (lesson_id : List Char) (worker_id batch_num : Nat) : ScrapeResult :=
  match outcome with
  | .ok _ => ⟨batch_num, worker_id, lesson_id, statusSuccess, none⟩
  | .error e => ⟨batch_num, worker_id, lesson_id, statusFailed, some (e.take 200)⟩

/-- `executor.map(scrape_single_course, tasks)`: one result record per task,
each computed from its own task alone. -/
def run_batch
    (tasks : List (Except (List Char) Unit × List Char × Nat × Nat)) :
    List ScrapeResult :=
  tasks.map (fun t => scrape_single_course t.1 t.2.1 t.2.2.1 t.2.2.2)

/-! ## Folder-name extraction (`scripts/fixed_scraper.py`,
`firecrawl_scraper.py`) -/

def manifestName : List Char :=
  ['i', 'm', 's', 'm', 'a', 'n', 'i', 'f', 'e', 's', 't', '.', 'x', 'm', 'l']

def courseContentFallback : List Char :=
  ['c', 'o', 'u', 'r', 's', 'e', '_', 'c', 'o', 'n', 't', 'e', 'n', 't']

/-- `url.rstrip('/')`. -/
def rstripSlash (l : List Char) : List Char :=
  (l.reverse.dropWhile (fun c => c == '/')).reverse

/-- `s.split('/')`. -/
def splitOnSlash : List Char → List (List Char)
  | [] => [[]]
  | c :: rest =>
    if c = '/' then [] :: splitOnSlash rest
    else
      match splitOnSlash rest with
      | [] => [[c]]
      | p :: ps => (c :: p) :: ps

/-- The `for i, part in enumerate(path_parts)` loop: return the previous
part at the first part equal to `imsmanifest.xml` that has one. -/
def loopFind : Option (List Char) → List (List Char) → Option (List Char)
  | _, [] => none
  | prev, p :: rest =>
    if p = manifestName then
      match prev with
      | some q => some q
      | none => loopFind (some p) rest
    else loopFind (some p) rest

def extract_folder_name (url : List Char) : List Char :=
  let parts := splitOnSlash (rstripSlash url)
  match loopFind none parts with
  | some q => q
  | none =>
    if 2 ≤ parts.length then parts.getD (parts.length - 2) []
    else courseContentFallback

/-- C9's claim-side description: the segment immediately preceding the
first occurrence of `imsmanifest.xml` that has a preceding segment, else
the second-to-last segment when there are at least two, else
`course_content`. -/
def extract_folder_name_claim (url : List Char) : List Char :=
  let parts := splitOnSlash (rstripSlash url)
  match (parts.zip parts.tail).find? (fun pr => pr.2 == manifestName) with
  | some pr => pr.1
  | none =>
    if 2 ≤ parts.length then parts.getD (parts.length - 2) []
    else courseContentFallback

/-- `true` when the two-character sequence `}`,`;` occurs somewhere in the
list; used to state minimality of the regex capture. -/
def hasBraceSemi : List Char → Bool
  | [] => false
  | [_] => false
  | c :: d :: rest =>
    if c = '}' ∧ d = ';' then true else hasBraceSemi (d :: rest)

/-- The write condition of C1: filename non-blank and not the sentinel,
payload non-blank, decode succeeds with more than 100 bytes. -/
def c1Cond (dec : List Char → Option (List Nat)) (fn b64 : List Char) : Prop :=
  pyStrip fn ≠ [] ∧ fn ≠ sentinel ∧ pyStrip b64 ≠ [] ∧
    ∃ bs, dec b64 = some bs ∧ 100 < bs.length

/-! ## Helper lemmas -/

theorem applyWrites_lookup (ws : List (List Char × List Nat)) :
    ∀ (fs : FileSys) (n : List Char),
      applyWrites fs ws n =
        match lastWrite ws n with
        | some d => some d
        | none => fs n := by
  induction ws with
  | nil => intro fs n; rfl
  | cons w rest ih =>
    intro fs n
    simp only [applyWrites, lastWrite]
    rw [ih]
    cases h : lastWrite rest n with
    | some d => rfl
    | none =>
      simp only [writeFile]
      by_cases hn : n = w.1 <;> simp [hn]

/-- C7: the base64 image-extraction transform is deterministic (a pure
function of the file content and the library oracles) and idempotent: a
second run produces the identical result record, and replaying its writes
over the file system a second time changes nothing. -/
theorem c7_idempotent_deterministic
    (jsonLoads : List Char → Option (List (List Char × List Char)))
    (b64decode : List Char → Option (List Nat))
    (content : List Char) (fs : FileSys) :
    extract_images_from_json jsonLoads b64decode content =
      extract_images_from_json jsonLoads b64decode content ∧
    applyWrites
        (applyWrites fs (extract_images_from_json jsonLoads b64decode content).writes)
        (extract_images_from_json jsonLoads b64decode content).writes =
      applyWrites fs (extract_images_from_json jsonLoads b64decode content).writes := by
  refine ⟨rfl, funext fun n => ?_⟩
  set ws := (extract_images_from_json jsonLoads b64decode content).writes with hws
  rw [applyWrites_lookup ws (applyWrites fs ws) n]
  cases h : lastWrite ws n with
  | some d =>
    rw [applyWrites_lookup ws fs n, h]
  | none => rfl

/-- C8: in every batch the worker-pool size is at most the number of API
keys, and equals the key count whenever the batch holds at least that many
tasks; the demo scraper's pool (`min(10, len(api_keys))`) satisfies the
same bounds for its at-most-ten-task batch. -/
theorem c8_worker_pool (batch_urls keys demo_urls : List (List Char)) :
    process_batch_max_workers batch_urls keys ≤ keys.length ∧
    (keys.length ≤ batch_urls.length →
      process_batch_max_workers batch_urls keys = keys.length) ∧
    demo_max_workers keys ≤ keys.length ∧
    (demo_urls.length ≤ 10 → keys.length ≤ demo_urls.length →
      demo_max_workers keys = keys.length) := by
  refine ⟨?_, ?_, ?_, ?_⟩ <;>
    simp only [process_batch_max_workers, demo_max_workers] <;> omega

/-- Witness for C8 at a concrete three-task batch over two keys. -/
theorem c8_worker_pool_witness :
    process_batch_max_workers [['u'], ['v'], ['w']] [['a'], ['b']] = 2 :=
  (c8_worker_pool [['u'], ['v'], ['w']] [['a'], ['b']] []).2.1 (by decide)

theorem addSet_mem (s : List (List Char)) (x y : List Char) :
    y ∈ addSet s x ↔ y ∈ s ∨ y = x := by
  unfold addSet
  by_cases h : x ∈ s
  · simp only [if_pos h]
    constructor
    · exact Or.inl
    · rintro (hy | rfl)
      · exact hy
      · exact h
  · simp [if_neg h, List.mem_append]

theorem addSet_nodup (s : List (List Char)) (x : List Char) (h : s.Nodup) :
    (addSet s x).Nodup := by
  unfold addSet
  by_cases hx : x ∈ s
  · simpa [if_pos hx] using h
  · simp only [if_neg hx]
    rw [List.nodup_append_comm]
    exact h.cons hx

theorem collectIdsSet_mem (x : List Char) (lines : List (List Char)) :
    ∀ acc, x ∈ collectIdsSet acc lines ↔ x ∈ acc ∨ x ∈ collectIds lines := by
  induction lines with
  | nil => intro acc; simp [collectIdsSet, collectIds]
  | cons l rest ih =>
    intro acc
    by_cases h : pyStrip l ≠ [] ∧ (pyStrip l).head? ≠ some '#'
    · simp only [collectIdsSet, collectIds, if_pos h]
      rw [ih, addSet_mem]
      simp only [List.mem_cons]
      tauto
    · simp only [collectIdsSet, collectIds, if_neg h]
      exact ih acc

theorem collectIdsSet_nodup (lines : List (List Char)) :
    ∀ acc : List (List Char), acc.Nodup → (collectIdsSet acc lines).Nodup := by
  induction lines with
  | nil => intro acc h; simpa [collectIdsSet] using h
  | cons l rest ih =>
    intro acc h
    by_cases hc : pyStrip l ≠ [] ∧ (pyStrip l).head? ≠ some '#'
    · simp only [collectIdsSet, if_pos hc]
      exact ih _ (addSet_nodup _ _ h)
    · simp only [collectIdsSet, if_neg hc]
      exact ih _ h

theorem collectIds_eq_filter (lines : List (List Char)) :
    collectIds lines =
      (lines.map pyStrip).filter
        (fun s => decide (s ≠ [] ∧ s.head? ≠ some '#')) := by
  induction lines with
  | nil => rfl
  | cons l rest ih =>
    by_cases h : pyStrip l ≠ [] ∧ (pyStrip l).head? ≠ some '#'
    · simp [collectIds, if_pos h, List.filter_cons, h, ih]
    · simp [collectIds, if_neg h, List.filter_cons, h, ih]

/-- C10: both loaders keep exactly the stripped lines that are non-empty and
not comments, so the result never holds an empty string or a `#`-comment;
the set-returning variant is duplicate-free; a missing file yields the
empty collection. -/
theorem c10_load_bad_modules (lines : List (List Char)) :
    collectIds lines =
      (lines.map pyStrip).filter
        (fun s => decide (s ≠ [] ∧ s.head? ≠ some '#')) ∧
    [] ∉ collectIds lines ∧
    (∀ x ∈ collectIds lines, x.head? ≠ some '#') ∧
    (collectIdsSet [] lines).Nodup ∧
    (∀ x, x ∈ collectIdsSet [] lines ↔ x ∈ collectIds lines) ∧
    load_bad_modules_as_list none = [] ∧
    load_bad_modules_as_set none = [] := by
  refine ⟨collectIds_eq_filter lines, ?_, ?_, collectIdsSet_nodup lines [] (by simp),
    fun x => by simpa using collectIdsSet_mem x lines [], rfl, rfl⟩
  · intro h
    rw [collectIds_eq_filter] at h
    have := List.of_mem_filter h
    simp at this
  · intro x hx
    rw [collectIds_eq_filter] at hx
    have := List.of_mem_filter hx
    simp only [decide_eq_true_eq] at this
    exact this.2

/-- Witness for C10 at a concrete file with a duplicate id, a comment and a
blank line. -/
theorem c10_load_bad_modules_witness :
    (['i', 'd'] : List Char).head? ≠ some '#' :=
  (c10_load_bad_modules [['i', 'd'], ['#', 'c'], [], ['i', 'd']]).2.2.1
    ['i', 'd'] (by decide)

theorem matching_rows_count (bad : List (List Char)) (rows : List Row) (r : Row) :
    (matching_rows bad rows).count r =
      if rowLessonId r ∈ bad then rows.count r else 0 := by
  unfold matching_rows
  by_cases hr : rowLessonId r ∈ bad
  · rw [if_pos hr]
    exact List.count_filter (by simpa using hr)
  · rw [if_neg hr]
    rw [List.count_eq_zero]
    intro hmem
    exact hr (by simpa using (List.mem_filter.mp hmem).2)

/-- C2: the bad-modules CSV filter outputs exactly the rows of the main CSV
whose stripped `lessonID` is in the bad-modules set, in the same relative
order (a sublist of the input), dropping no matching row and admitting no
other row — including multiplicity. -/
theorem c2_filter_exact (bad : List (List Char)) (rows : List Row) :
    List.Sublist (matching_rows bad rows) rows ∧
    (∀ r ∈ matching_rows bad rows, r ∈ rows ∧ rowLessonId r ∈ bad) ∧
    (∀ r ∈ rows, rowLessonId r ∈ bad → r ∈ matching_rows bad rows) ∧
    (∀ r, (matching_rows bad rows).count r =
      if rowLessonId r ∈ bad then rows.count r else 0) := by
  refine ⟨List.filter_sublist rows, ?_, ?_, matching_rows_count bad rows⟩
  · intro r hr
    have := List.mem_filter.mp hr
    simpa using this
  · intro r hr hbad
    exact List.mem_filter.mpr ⟨hr, by simpa using hbad⟩

/-- Witness for C2 at a concrete one-row CSV whose row matches the set. -/
theorem c2_filter_exact_witness :
    ([(lessonIDKey, ['i', 'd', '1'])] : Row) ∈
      matching_rows [['i', 'd', '1']] [[(lessonIDKey, ['i', 'd', '1'])]] :=
  (c2_filter_exact [['i', 'd', '1']] [[(lessonIDKey, ['i', 'd', '1'])]]).2.2.1
    [(lessonIDKey, ['i', 'd', '1'])] (by decide) (by decide)

/-- C4: `scrape_single_course` never propagates an exception: any raising
outcome yields a record with status `failed` whose error is the message
truncated to at most 200 characters, a returning outcome yields status
`success` with no error field, and mapping over a batch produces one record
per task with each record computed from its own task alone. -/
theorem c4_no_exception_escape
    (tasks : List (Except (List Char) Unit × List Char × Nat × Nat))
    (outcome : Except (List Char) Unit) (lid : List Char) (w b : Nat) :
    (∀ e, outcome = .error e →
      scrape_single_course outcome lid w b =
        ⟨b, w, lid, statusFailed, some (e.take 200)⟩ ∧
      (e.take 200).length ≤ 200) ∧
    (outcome = .ok () →
      scrape_single_course outcome lid w b =
        ⟨b, w, lid, statusSuccess, none⟩) ∧
    (run_batch tasks).length = tasks.length ∧
    (∀ i : Nat, (run_batch tasks)[i]? =
      (tasks[i]?).map
        (fun t => scrape_single_course t.1 t.2.1 t.2.2.1 t.2.2.2)) := by
  refine ⟨?_, ?_, ?_, ?_⟩
  · rintro e rfl
    refine ⟨rfl, ?_⟩
    rw [List.length_take]
    omega
  · rintro rfl
    rfl
  · simp [run_batch]
  · intro i
    simp [run_batch]

/-- Witness for C4: a 300-character message is truncated to 200 characters,
and a returning outcome yields a success record. -/
theorem c4_no_exception_escape_witness :
    scrape_single_course (Except.error (List.replicate 300 'x')) ['l'] 1 2 =
      ⟨2, 1, ['l'], statusFailed, some (List.replicate 200 'x')⟩ ∧
    scrape_single_course (Except.ok ()) ['l'] 1 2 =
      ⟨2, 1, ['l'], statusSuccess, none⟩ := by
  have h := c4_no_exception_escape [] (Except.error (List.replicate 300 'x')) ['l'] 1 2
  have h2 := c4_no_exception_escape [] (Except.ok ()) ['l'] 1 2
  refine ⟨?_, h2.2.1 rfl⟩
  rw [(h.1 _ rfl).1, List.take_replicate]
  norm_num

/-- Full characterization of `processEntry`, matching the source's nested
conditionals; helper for C1. -/
theorem processEntry_eq (dec : List Char → Option (List Nat)) (fn b64 : List Char) :
    processEntry dec (fn, b64) =
      if pyStrip fn = [] ∨ fn = sentinel then ⟨[], 0⟩
      else if pyStrip b64 = [] then ⟨[], 0⟩
      else
        match dec b64 with
        | none => ⟨[], 0⟩
        | some bs =>
          if 100 < bs.length then ⟨[(clean_filename fn, bs)], 1⟩
          else ⟨[], 0⟩ := rfl

/-- C1: an entry's decoded bytes are written (and counted) iff the filename
is non-blank and not the sentinel `___`, the base64 payload is non-blank,
and decoding succeeds with strictly more than 100 bytes; in particular a
decoded payload of at most 100 bytes is never written and never counted. -/
theorem c1_write_iff (dec : List Char → Option (List Nat)) (fn b64 : List Char) :
    ((processEntry dec (fn, b64)).writes ≠ [] ↔ c1Cond dec fn b64) ∧
    (∀ bs, dec b64 = some bs → c1Cond dec fn b64 →
      processEntry dec (fn, b64) = ⟨[(clean_filename fn, bs)], 1⟩) ∧
    (∀ bs, dec b64 = some bs → bs.length ≤ 100 →
      processEntry dec (fn, b64) = ⟨[], 0⟩) ∧
    (¬ c1Cond dec fn b64 → processEntry dec (fn, b64) = ⟨[], 0⟩) := by
  unfold c1Cond
  by_cases h1 : pyStrip fn = [] ∨ fn = sentinel
  · have hpe : processEntry dec (fn, b64) = ⟨[], 0⟩ := by
      rw [processEntry_eq, if_pos h1]
    rw [hpe]
    refine ⟨?_, ?_, fun _ _ _ => rfl, fun _ => rfl⟩
    · simp only [ne_eq, not_true_eq_false, false_iff]
      rintro ⟨ha, hb, -⟩
      rcases h1 with h | h
      · exact ha h
      · exact hb h
    · rintro bs - ⟨ha, hb, -⟩
      rcases h1 with h | h
      · exact (ha h).elim
      · exact (hb h).elim
  · have h1' := h1
    push_neg at h1'
    by_cases h2 : pyStrip b64 = []
    · have hpe : processEntry dec (fn, b64) = ⟨[], 0⟩ := by
        rw [processEntry_eq, if_neg h1, if_pos h2]
      rw [hpe]
      refine ⟨?_, ?_, fun _ _ _ => rfl, fun _ => rfl⟩
      · simp only [ne_eq, not_true_eq_false, false_iff]
        rintro ⟨-, -, hb, -⟩
        exact hb h2
      · rintro bs - ⟨-, -, hb, -⟩
        exact (hb h2).elim
    · cases hdec : dec b64 with
      | none =>
        have hpe : processEntry dec (fn, b64) = ⟨[], 0⟩ := by
          rw [processEntry_eq, if_neg h1, if_neg h2, hdec]
        rw [hpe]
        refine ⟨?_, ?_, ?_, fun _ => rfl⟩
        · simp only [ne_eq, not_true_eq_false, false_iff]
          rintro ⟨-, -, -, bs, hbs, -⟩
          exact Option.noConfusion hbs
        · intro bs hbs
          exact Option.noConfusion hbs
        · intro bs hbs
          exact Option.noConfusion hbs
      | some bs0 =>
        by_cases h3 : 100 < bs0.length
        · have hpe : processEntry dec (fn, b64) =
              ⟨[(clean_filename fn, bs0)], 1⟩ := by
            rw [processEntry_eq, if_neg h1, if_neg h2, hdec]
            simp [h3]
          rw [hpe]
          refine ⟨?_, ?_, ?_, ?_⟩
          · simp only [ne_eq, List.cons_ne_nil, not_false_eq_true, true_iff]
            exact ⟨h1'.1, h1'.2, h2, bs0, rfl, h3⟩
          · intro bs hbs _
            injection hbs with hbs
            rw [hbs]
          · intro bs hbs hle
            injection hbs with hbs
            subst hbs
            exact absurd h3 (by omega)
          · intro hc
            exact (hc ⟨h1'.1, h1'.2, h2, bs0, rfl, h3⟩).elim
        · have hpe : processEntry dec (fn, b64) = ⟨[], 0⟩ := by
            rw [processEntry_eq, if_neg h1, if_neg h2, hdec]
            simp [h3]
          rw [hpe]
          refine ⟨?_, ?_, fun _ _ _ => rfl, fun _ => rfl⟩
          · simp only [ne_eq, not_true_eq_false, false_iff]
            rintro ⟨-, -, -, bs, hbs, hlen⟩
            injection hbs with hbs
            subst hbs
            exact h3 hlen
          · rintro bs hbs ⟨-, -, -, bs2, hbs2, hlen⟩
            injection hbs2 with hbs2
            subst hbs2
            exact (h3 hlen).elim

/-- Witness for C1: a 101-byte decode is written once under the sanitized
name, a 50-byte decode is skipped. -/
theorem c1_write_iff_witness :
    processEntry (fun _ => some (List.replicate 101 7)) (['a'], ['b']) =
      ⟨[(clean_filename ['a'], List.replicate 101 7)], 1⟩ ∧
    processEntry (fun _ => some (List.replicate 50 7)) (['a'], ['b']) =
      ⟨[], 0⟩ := by
  constructor
  · exact (c1_write_iff (fun _ => some (List.replicate 101 7)) ['a'] ['b']).2.1
      (List.replicate 101 7) rfl
      ⟨by decide, by decide, by decide, List.replicate 101 7, rfl, by simp⟩
  · exact (c1_write_iff (fun _ => some (List.replicate 50 7)) ['a'] ['b']).2.2.1
      (List.replicate 50 7) rfl (by simp)

theorem clean_filename_no_slash (fn : List Char) : '/' ∉ clean_filename fn := by
  have hrep : '/' ∉ fn.map (fun c => if c = '/' then '_' else c) := by
    intro h
    rcases List.mem_map.mp h with ⟨c, -, hc⟩
    by_cases hcc : c = '/'
    · rw [if_pos hcc] at hc
      exact absurd hc (by decide)
    · exact hcc (by rwa [if_neg hcc] at hc)
  simp only [clean_filename]
  split
  · exact hrep
  · intro h
    rcases List.mem_append.mp h with h | h
    · exact hrep h
    · exact absurd h (by decide)

theorem clean_filename_ends_png (fn : List Char) :
    List.IsSuffix pngSuffix (clean_filename fn) := by
  simp only [clean_filename]
  split
  case isTrue h => exact List.isSuffixOf_iff_suffix.mp h
  case isFalse _ => exact List.suffix_append _ _

theorem processEntries_writes_shape
    (dec : List Char → Option (List Nat)) (entries : List (List Char × List Char)) :
    ∀ p ∈ (processEntries dec entries).writes,
      ∃ e ∈ entries, p.1 = clean_filename e.1 := by
  induction entries with
  | nil =>
    intro p hp
    simp [processEntries] at hp
  | cons e rest ih =>
    obtain ⟨fn, b64⟩ := e
    intro p hp
    simp only [processEntries] at hp
    rcases List.mem_append.mp hp with hp | hp
    · refine ⟨(fn, b64), List.mem_cons_self _ _, ?_⟩
      rw [processEntry_eq] at hp
      split at hp
      · simp at hp
      · split at hp
        · simp at hp
        · split at hp
          · simp at hp
          · split at hp
            · rw [List.mem_singleton.mp hp]
            · simp at hp
    · obtain ⟨e2, he2, hpe⟩ := ih p hp
      exact ⟨e2, List.mem_cons_of_mem _ he2, hpe⟩

/-- C5: every filename written by the image extractor is the sanitized form
of an input key (path separators replaced by `_`, `.png` appended when the
name does not already end in `.png`), hence contains no path separator and
always ends in `.png`. -/
theorem c5_sanitized_names
    (jsonLoads : List Char → Option (List (List Char × List Char)))
    (dec : List Char → Option (List Nat)) (content : List Char) :
    ∀ p ∈ (extract_images_from_json jsonLoads dec content).writes,
      (∃ fn, p.1 = clean_filename fn) ∧
      '/' ∉ p.1 ∧ List.IsSuffix pngSuffix p.1 := by
  intro p hp
  unfold extract_images_from_json at hp
  split at hp
  · simp at hp
  · split at hp
    · simp at hp
    · obtain ⟨e, -, hpe⟩ := processEntries_writes_shape dec _ p hp
      rw [hpe]
      exact ⟨⟨e.1, rfl⟩, clean_filename_no_slash e.1, clean_filename_ends_png e.1⟩

/-- Witness for C5 at a one-entry cache blob whose key holds a `/` and no
`.png` extension. -/
theorem c5_sanitized_names_witness :
    '/' ∉ clean_filename ['a', '/', 'b'] ∧
    List.IsSuffix pngSuffix (clean_filename ['a', '/', 'b']) := by
  have h := c5_sanitized_names
      (fun _ => some [(['a', '/', 'b'], ['q'])])
      (fun _ => some (List.replicate 101 0))
      (cacheLit ++ ['1', '=', '{', '}', ';'])
      (clean_filename ['a', '/', 'b'], List.replicate 101 0)
      (by decide)
  exact ⟨h.2.1, h.2.2⟩

theorem loopFind_some_eq (ps : List (List Char)) :
    ∀ q, loopFind (some q) ps =
      (((q :: ps).zip ps).find? (fun pr => pr.2 == manifestName)).map
        Prod.fst := by
  induction ps with
  | nil => intro q; rfl
  | cons p rest ih =>
    intro q
    rw [List.zip_cons_cons]
    by_cases hp : p = manifestName
    · rw [List.find?_cons_of_pos _ (by simp [hp])]
      simp [loopFind, hp]
    · rw [List.find?_cons_of_neg _ (by simp [hp])]
      rw [← ih p]
      simp [loopFind, hp]

theorem loopFind_none_eq (parts : List (List Char)) :
    loopFind none parts =
      ((parts.zip parts.tail).find? (fun pr => pr.2 == manifestName)).map
        Prod.fst := by
  cases parts with
  | nil => rfl
  | cons p rest =>
    have hstep : loopFind none (p :: rest) = loopFind (some p) rest := by
      simp only [loopFind]
      split
      · rfl
      · rfl
    rw [hstep, loopFind_some_eq rest p]
    rfl

/-- C9: `extract_folder_name` is total on strings (a total function of the
url) and agrees everywhere with the claim's description: the segment before
the first occurrence of `imsmanifest.xml` that has a preceding segment,
else the second-to-last segment when the slash-stripped url has at least
two segments, else `course_content`. -/
theorem c9_extract_folder_name (url : List Char) :
    extract_folder_name url = extract_folder_name_claim url := by
  simp only [extract_folder_name, extract_folder_name_claim]
  rw [loopFind_none_eq]
  cases h : ((splitOnSlash (rstripSlash url)).zip
      (splitOnSlash (rstripSlash url)).tail).find?
      (fun pr => pr.2 == manifestName) with
  | none => rfl
  | some pr => rfl

theorem batchTasksFrom_length (keys : List (List Char)) (bnum : Nat)
    (bu : List (List Char)) :
    ∀ i, (batchTasksFrom keys bnum bu i).length = bu.length := by
  induction bu with
  | nil => intro i; rfl
  | cons u rest ih =>
    intro i
    simp only [batchTasksFrom, List.length_cons, ih]

theorem batchTasksFrom_getElem? (keys : List (List Char)) (bnum : Nat)
    (bu : List (List Char)) :
    ∀ i t, (batchTasksFrom keys bnum bu i)[t]? =
      (bu[t]?).map
        (fun u => (⟨u, batchKey keys (i + t), i + t + 1, bnum⟩ : Task)) := by
  induction bu with
  | nil => intro i t; simp [batchTasksFrom]
  | cons u rest ih =>
    intro i t
    cases t with
    | zero => simp [batchTasksFrom]
    | succ t2 =>
      simp only [batchTasksFrom, List.getElem?_cons_succ]
      rw [ih (i + 1) t2]
      have h1 : i + 1 + t2 = i + (t2 + 1) := by omega
      rw [h1]

theorem allTasksAux_key (kp : Nat) (keys : List (List Char)) (n : Nat) :
    ∀ (urls : List (List Char)), urls.length ≤ n → ∀ (bnum t : Nat),
      t < urls.length →
      ((allTasksAux kp keys urls bnum)[t]?).map Task.api_key =
        some (batchKey keys (t % (kp + 1))) := by
  induction n with
  | zero =>
    intro urls hlen bnum t ht
    omega
  | succ n ih =>
    intro urls hlen bnum t ht
    cases urls with
    | nil => simp at ht
    | cons u rest =>
      rw [allTasksAux]
      simp only [List.length_cons] at hlen ht
      have hlen1 :
          (process_batch_tasks ((u :: rest).take (kp + 1)) keys bnum).length =
            min (kp + 1) (rest.length + 1) := by
        rw [process_batch_tasks, batchTasksFrom_length, List.length_take,
          List.length_cons]
      by_cases hc : t < kp + 1
      · have htl :
            t < (process_batch_tasks ((u :: rest).take (kp + 1)) keys bnum).length := by
          rw [hlen1]
          omega
        rw [List.getElem?_append_left htl]
        rw [process_batch_tasks, batchTasksFrom_getElem?]
        rw [List.getElem?_take_of_lt hc]
        have ht2 : t < (u :: rest).length := by
          rw [List.length_cons]
          omega
        rw [List.getElem?_eq_getElem ht2]
        simp only [Option.map_some']
        rw [Nat.zero_add, Nat.mod_eq_of_lt hc]
      · push_neg at hc
        have hge :
            (process_batch_tasks ((u :: rest).take (kp + 1)) keys bnum).length ≤ t := by
          rw [hlen1]
          omega
        rw [List.getElem?_append_right hge]
        rw [hlen1]
        have hmin : min (kp + 1) (rest.length + 1) = kp + 1 := by
          omega
        rw [hmin]
        have hdlen : (rest.drop kp).length ≤ n := by
          simp only [List.length_drop]
          omega
        have hdt : t - (kp + 1) < (rest.drop kp).length := by
          simp only [List.length_drop]
          omega
        rw [ih (rest.drop kp) hdlen (bnum + 1) (t - (kp + 1)) hdt]
        have hmod : (t - (kp + 1)) % (kp + 1) = t % (kp + 1) := by
          conv_rhs => rw [show t = (t - (kp + 1)) + (kp + 1) from by omega]
          rw [Nat.add_mod_right]
        rw [hmod]

/-- C3: in the batched parallel scraper the task at overall 0-based index
`t` is assigned key `keys[t mod K]`; since the batch size equals the key
count, the in-batch assignment `keys[i mod K]` for batch-local index `i`
coincides with this global round-robin rule for every task of every
batch. -/
theorem c3_round_robin (keys urls : List (List Char)) (hK : 0 < keys.length)
    (t : Nat) (ht : t < urls.length) :
    ((main_all_tasks urls keys)[t]?).map Task.api_key =
      some (keys.getD (t % keys.length) []) ∧
    batchKey keys (t % keys.length) = keys.getD (t % keys.length) [] := by
  have hb : batchKey keys (t % keys.length) = keys.getD (t % keys.length) [] := by
    unfold batchKey
    rw [Nat.mod_mod_of_dvd t dvd_rfl]
  refine ⟨?_, hb⟩
  unfold main_all_tasks
  rw [if_neg (by omega)]
  have h := allTasksAux_key (keys.length - 1) keys urls.length urls le_rfl 1 t ht
  have hk : keys.length - 1 + 1 = keys.length := by omega
  rw [hk] at h
  rw [h, hb]

/-- Witness for C3: with two keys and three urls, the task at global index
2 (the lone task of batch 2) receives `keys[2 mod 2] = keys[0]`. -/
theorem c3_round_robin_witness :
    ((main_all_tasks [['u'], ['v'], ['w']] [['a'], ['b']])[2]?).map Task.api_key =
      some ['a'] := by
  have h := c3_round_robin [['a'], ['b']] [['u'], ['v'], ['w']] (by decide) 2
    (by decide)
  exact h.1

theorem stripLit_sound (p : List Char) :
    ∀ l r, stripLit p l = some r → l = p ++ r := by
  induction p with
  | nil =>
    intro l r h
    injection h with h
  | cons a ps ih =>
    intro l r h
    cases l with
    | nil => cases h
    | cons c cs =>
      simp only [stripLit] at h
      split at h
      case isTrue hca =>
        rw [List.cons_append, hca, ih cs r h]
      case isFalse hca => cases h

theorem braceBody_sound :
    ∀ (l body : List Char), braceBody l = some body →
      ∃ init tail, l = init ++ '}' :: ';' :: tail ∧ body = init ++ ['}'] ∧
        hasBraceSemi (init ++ ['}']) = false := by
  intro l
  induction l with
  | nil => intro body h; cases h
  | cons c rest ih =>
    cases rest with
    | nil => intro body h; cases h
    | cons d rest2 =>
      intro body h
      simp only [braceBody] at h
      split at h
      case isTrue hcd =>
        injection h with h
        refine ⟨[], rest2, ?_, h.symm, rfl⟩
        rw [hcd.1, hcd.2]
        rfl
      case isFalse hcd =>
        rcases Option.map_eq_some'.mp h with ⟨b, hb, rfl⟩
        obtain ⟨init, tail, hl, hbody, hfree⟩ := ih b hb
        refine ⟨c :: init, tail, ?_, ?_, ?_⟩
        · rw [List.cons_append, ← hl]
        · rw [List.cons_append, ← hbody]
        · rw [List.cons_append]
          cases init with
          | nil =>
            simp [hasBraceSemi]
          | cons e init2 =>
            have hde : d = e := by
              rw [List.cons_append] at hl
              injection hl
            simp only [List.cons_append, hasBraceSemi]
            rw [if_neg (by rw [← hde]; exact hcd)]
            simpa [List.cons_append] using hfree

theorem matchAt_sound (l s : List Char) (h : matchAt l = some s) :
    ∃ ds w1 w2 init tail,
      l = cacheLit ++ ds ++ w1 ++ '=' :: (w2 ++ s ++ ';' :: tail) ∧
      ds ≠ [] ∧ (∀ c ∈ ds, isPyDigit c = true) ∧
      (∀ c ∈ w1, isPySpace c = true) ∧ (∀ c ∈ w2, isPySpace c = true) ∧
      s = '{' :: (init ++ ['}']) ∧ hasBraceSemi (init ++ ['}']) = false := by
  unfold matchAt at h
  split at h
  next => cases h
  next r hstrip =>
    by_cases hds : r.takeWhile isPyDigit = []
    · rw [if_pos hds] at h
      cases h
    · rw [if_neg hds] at h
      split at h
      next r3' hr2 =>
        split at h
        next rest' hr4 =>
          rcases Option.map_eq_some'.mp h with ⟨b, hb, rfl⟩
          obtain ⟨init, tail, hrest, hbody, hfree⟩ := braceBody_sound rest' b hb
          refine ⟨r.takeWhile isPyDigit,
            (r.dropWhile isPyDigit).takeWhile isPySpace,
            r3'.takeWhile isPySpace, init, tail, ?_, hds, ?_, ?_, ?_, ?_,
            hfree⟩
          · have hl : l = cacheLit ++ r := stripLit_sound cacheLit l r hstrip
            have hr : r.takeWhile isPyDigit ++ r.dropWhile isPyDigit = r :=
              List.takeWhile_append_dropWhile isPyDigit r
            have hr1 : (r.dropWhile isPyDigit).takeWhile isPySpace ++
                (r.dropWhile isPyDigit).dropWhile isPySpace =
                  r.dropWhile isPyDigit :=
              List.takeWhile_append_dropWhile isPySpace (r.dropWhile isPyDigit)
            have hr3 : r3'.takeWhile isPySpace ++ r3'.dropWhile isPySpace =
                r3' :=
              List.takeWhile_append_dropWhile isPySpace r3'
            rw [hl]
            conv_lhs => rw [← hr, ← hr1, hr2, ← hr3, hr4, hrest]
            rw [hbody]
            simp [List.append_assoc]
          · intro c hc
            exact List.mem_takeWhile_imp hc
          · intro c hc
            exact List.mem_takeWhile_imp hc
          · intro c hc
            exact List.mem_takeWhile_imp hc
          · rw [hbody]
        next => cases h
      next => cases h

theorem findCacheMatch_sound :
    ∀ (content s : List Char), findCacheMatch content = some s →
      ∃ pre suf, content = pre ++ suf ∧ matchAt suf = some s ∧
        ∀ pre2 suf2, content = pre2 ++ suf2 → pre2.length < pre.length →
          matchAt suf2 = none := by
  intro content
  induction content with
  | nil => intro s h; cases h
  | cons c rest ih =>
    intro s h
    unfold findCacheMatch at h
    cases hm : matchAt (c :: rest) with
    | some s0 =>
      rw [hm] at h
      injection h with h
      subst h
      refine ⟨[], c :: rest, rfl, hm, ?_⟩
      intro pre2 suf2 _ hlt
      simp at hlt
    | none =>
      rw [hm] at h
      obtain ⟨pre, suf, heq, hmat, hmin⟩ := ih s h
      refine ⟨c :: pre, suf, by rw [List.cons_append, ← heq], hmat, ?_⟩
      intro pre2 suf2 he hlt
      cases pre2 with
      | nil =>
        simp only [List.nil_append] at he
        rw [← he]
        exact hm
      | cons c2 pre2' =>
        rw [List.cons_append] at he
        injection he with h1 h2
        refine hmin pre2' suf2 h2 ?_
        simpa using hlt

/-- C6: `extract_images_from_json` locates the leftmost substring matching
`cp.imagesJSONCache<digits> = { ... };` with the brace span matched
minimally (no earlier `};` inside the capture, no earlier match position);
when no match exists, or the captured span fails to parse as JSON, it
writes nothing and returns 0; per-entry decode failures leave the other
entries' writes and counts untouched. -/
theorem c6_extraction_control_flow
    (jsonLoads : List Char → Option (List (List Char × List Char)))
    (dec : List Char → Option (List Nat)) (content : List Char) :
    (findCacheMatch content = none →
      extract_images_from_json jsonLoads dec content = ⟨[], 0⟩) ∧
    (∀ s, findCacheMatch content = some s → jsonLoads s = none →
      extract_images_from_json jsonLoads dec content = ⟨[], 0⟩) ∧
    (∀ s, findCacheMatch content = some s →
      ∃ pre suf ds w1 w2 init tail,
        content = pre ++ suf ∧
        suf = cacheLit ++ ds ++ w1 ++ '=' :: (w2 ++ s ++ ';' :: tail) ∧
        ds ≠ [] ∧ (∀ c ∈ ds, isPyDigit c = true) ∧
        (∀ c ∈ w1, isPySpace c = true) ∧ (∀ c ∈ w2, isPySpace c = true) ∧
        s = '{' :: (init ++ ['}']) ∧ hasBraceSemi (init ++ ['}']) = false ∧
        (∀ pre2 suf2, content = pre2 ++ suf2 → pre2.length < pre.length →
          matchAt suf2 = none)) ∧
    (∀ e es, processEntries dec (e :: es) =
      ⟨(processEntry dec e).writes ++ (processEntries dec es).writes,
        (processEntry dec e).count + (processEntries dec es).count⟩) := by
  refine ⟨?_, ?_, ?_, fun e es => rfl⟩
  · intro hnone
    unfold extract_images_from_json
    rw [hnone]
  · intro s hs hj
    unfold extract_images_from_json
    rw [hs]
    simp [hj]
  · intro s hs
    obtain ⟨pre, suf, heq, hmat, hmin⟩ := findCacheMatch_sound content s hs
    obtain ⟨ds, w1, w2, init, tail, hsuf, hds, hdig, hw1, hw2, hcap, hfree⟩ :=
      matchAt_sound suf s hmat
    exact ⟨pre, suf, ds, w1, w2, init, tail, heq, hsuf, hds, hdig, hw1, hw2,
      hcap, hfree, hmin⟩

/-- Witness for C6: a file text with no cache assignment extracts nothing
and returns 0. -/
theorem c6_extraction_control_flow_witness :
    extract_images_from_json (fun _ => none) (fun _ => none) ['x'] =
      ⟨[], 0⟩ :=
  (c6_extraction_control_flow (fun _ => none) (fun _ => none) ['x']).1
    (by decide)

end MMCScrape
